import Mathlib

/-!
Verification development for the teo language parser repository.

The repository has three source files:
* `src/lexer/lexer.rs` — a logos-derived tokenizer for a schema language;
* `src/fsutil/fsutil.rs` — the `FSUtil` capability record of injected
  file-system functions, with the derived `import_path`;
* `src/fsutil/default.rs` — the default implementation of the path
  functions, using Rust `Path::join` / `PathBuf::pop` plus the
  `path_clean` crate (Unix separators; the sources' tests use the Unix
  branches of the `cfg!(windows)` conditionals).

The lexer embedding follows the documented semantics of the logos runtime:
at each position the longest match over the union of all rule languages
wins (maximal munch); when several rules match the same longest slice the
rule with the higher logos priority wins.  Logos priorities: a `token`
literal has priority two times its byte length; for a `regex` pattern the
priority is the sum over the pattern's mandatory part, two per literal or
class, with starred subterms contributing zero.  Hence here: keywords
`2 * length`, single-character operators `2`, `Identifier`
`[a-zA-Z][a-zA-Z0-9_-]*` priority `2`, `Regex` `/.+/` priority `6`,
`String` priority `4`, `LineComment` `//[^\n]*` priority `4`.

On input matched by no rule the logos lexer emits an `Err` item whose span
covers the bytes consumed by the failed attempt and resumes scanning right
after them: a single character when the failure is at the first character,
and the whole remaining buffer for an unterminated string literal (the
only rule set here that can consume several characters without ever
reaching an accepting state starts at an unescaped `"` with no closing
quote before the end of the buffer).  Buffers are modelled as `List Char`.
-/

/-- Token kinds of the lexer, from the `Token` enum in `lexer.rs`.
The Rust variant `Type` is spelled `TypeKw` because `Type` is reserved
in Lean. -/
inductive Token where
  | Import | Include | From | Let | Var | Enum | Model | TypeKw
  | Function | Struct | Config | Native | Where
  | Plus | Minus | Star | Slash | Percent | Caret | Ampersand | Pipe
  | Bang | Question | Period | Colon | Comma
  | BraceOpen | BraceClose | ParenOpen | ParenClose
  | BracketOpen | BracketClose | AngleOpen | AngleClose | Equal
  | Identifier | Regex | String | LineComment
deriving Repr, DecidableEq

/-- Characters skipped between tokens: the logos skip pattern
`[ \t\n\f]+` (`'\x0c'` is the form feed). -/
def isSkip (c : Char) : Bool :=
  c == ' ' || c == '\t' || c == '\n' || c == '\x0c'

/-- The class `[a-zA-Z]`, first character of an identifier. -/
def isAlpha (c : Char) : Bool :=
  decide (('a' ≤ c ∧ c ≤ 'z') ∨ ('A' ≤ c ∧ c ≤ 'Z'))

/-- The class `[0-9]`. -/
def isDigit (c : Char) : Bool :=
  decide ('0' ≤ c ∧ c ≤ '9')

/-- The class `[a-zA-Z0-9_-]` of identifier continuation characters. -/
def isIdentCont (c : Char) : Bool :=
  isAlpha c || isDigit c || c == '_' || c == '-'

/-- Language of a `token` literal rule: exactly the keyword text. -/
def kwLang (kw : List Char) (w : List Char) : Bool := w == kw

/-- Language of a single-character operator rule. -/
def opLang (c : Char) (w : List Char) : Bool := w == [c]

/-- Language of `[a-zA-Z][a-zA-Z0-9_-]*` (the `Identifier` rule). -/
def identLang : List Char → Bool
  | [] => false
  | c :: rest => isAlpha c && rest.all isIdentCont

/-- Language of `/.+/` (the `Regex` rule): a slash, at least one
character other than a newline (`.` does not match `\n`), and a slash. -/
def regexLang (w : List Char) : Bool :=
  (w.head? == some '/') && decide (3 ≤ w.length) && (w.getLast? == some '/')
    && ((w.drop 1).dropLast.all (fun c => c != '\n'))

/-- Language of the body `(?:[^"]|\\")*` of the `String` rule: a sequence
of blocks, each either one non-quote character or a backslash-escaped
quote. -/
def stringBody : List Char → Bool
  | [] => true
  | [c] => c != '"'
  | c :: d :: rest =>
    (c != '"' && stringBody (d :: rest)) || (c == '\\' && d == '"' && stringBody rest)

/-- Language of `"(?:[^"]|\\")*"` (the `String` rule). -/
def stringLang (w : List Char) : Bool :=
  (w.head? == some '"') && decide (2 ≤ w.length) && (w.getLast? == some '"')
    && stringBody ((w.drop 1).dropLast)

/-- Language of `//[^\n]*` (the `LineComment` rule). -/
def lineCommentLang (w : List Char) : Bool :=
  (w.take 2 == ['/', '/']) && (w.drop 2).all (fun c => c != '\n')

/-- A lexer rule: emitted token kind, logos priority, and the exact-match
language of its pattern. -/
structure Rule where
  tok : Token
  prio : Nat
  lang : List Char → Bool

/-- The thirteen reserved words with their token kinds, in source order. -/
def kwTable : List (List Char × Token) :=
  [("import".toList, .Import), ("include".toList, .Include),
   ("from".toList, .From), ("let".toList, .Let), ("var".toList, .Var),
   ("enum".toList, .Enum), ("model".toList, .Model),
   ("type".toList, .TypeKw), ("function".toList, .Function),
   ("struct".toList, .Struct), ("config".toList, .Config),
   ("native".toList, .Native), ("where".toList, .Where)]

/-- The single-character operator and punctuation rules, in source order. -/
def opTable : List (Char × Token) :=
  [('+', .Plus), ('-', .Minus), ('*', .Star), ('/', .Slash),
   ('%', .Percent), ('^', .Caret), ('&', .Ampersand), ('|', .Pipe),
   ('!', .Bang), ('?', .Question), ('.', .Period), (':', .Colon),
   (',', .Comma), ('\x7b', .BraceOpen), ('\x7d', .BraceClose),
   ('(', .ParenOpen), (')', .ParenClose), ('[', .BracketOpen),
   (']', .BracketClose), ('<', .AngleOpen), ('>', .AngleClose),
   ('=', .Equal)]

/-- Keyword rules, with logos priority twice the literal length. -/
def kwRules : List Rule :=
  kwTable.map (fun q => ⟨q.2, 2 * q.1.length, kwLang q.1⟩)

/-- Operator rules, single-character literals of priority 2. -/
def opRules : List Rule :=
  opTable.map (fun q => ⟨q.2, 2, opLang q.1⟩)

/-- The `Identifier` rule (logos priority 2: one mandatory class). -/
def identRule : Rule := ⟨.Identifier, 2, identLang⟩

/-- The `Regex` rule (logos priority 6: literal, mandatory class, literal). -/
def regexRule : Rule := ⟨.Regex, 6, regexLang⟩

/-- The `String` rule (logos priority 4: two literal quotes). -/
def stringRule : Rule := ⟨.String, 4, stringLang⟩

/-- The `LineComment` rule (logos priority 4: the two-byte literal). -/
def lineCommentRule : Rule := ⟨.LineComment, 4, lineCommentLang⟩

/-- All rules in source order. -/
def rules : List Rule :=
  kwRules ++ opRules ++ [identRule, regexRule, stringRule, lineCommentRule]

/-- Largest `l` with `1 ≤ l ≤ n` and `p l = true` (none of the rule
languages contains the empty word, so length zero is never a match). -/
def bestLen (p : Nat → Bool) : Nat → Option Nat
  | 0 => none
  | n + 1 => if p (n + 1) then some (n + 1) else bestLen p n

/-- The longest prefix of `s` matched by rule `r`, if any. -/
def ruleBest (r : Rule) (s : List Char) : Option Nat :=
  bestLen (fun l => r.lang (s.take l)) s.length

/-- One step of the maximal-munch comparison: keep the candidate with the
longer match, breaking equal lengths by the higher logos priority. -/
def stepRule (s : List Char) (acc : Option (Token × Nat × Nat)) (r : Rule) :
    Option (Token × Nat × Nat) :=
  match ruleBest r s with
  | none => acc
  | some l =>
    match acc with
    | none => some (r.tok, l, r.prio)
    | some (t0, l0, p0) =>
      if l0 < l ∨ (l0 = l ∧ p0 < r.prio) then some (r.tok, l, r.prio)
      else some (t0, l0, p0)

/-- The match the logos automaton commits to at the start of `s`: the
longest match over all rules, ties broken by priority. -/
def pickBest (s : List Char) : Option (Token × Nat) :=
  (rules.foldl (stepRule s) none).map (fun c => (c.1, c.2.1))

/-- One item of the spanned token sequence, as produced by
`Token::lexer(..).spanned()`: `tok = none` is a logos `Err` item, and
`start`/`stop` are the byte span into the buffer. -/
structure Item where
  tok : Option Token
  start : Nat
  stop : Nat
deriving Repr, DecidableEq

/-- The scan loop.  Fuel is structural; `lex` supplies `s.length`, enough
because every step consumes at least one character.  Skip characters are
consumed one at a time; a committed match emits its token and resumes
after it; when no rule matches, an `Err` item is emitted spanning the
consumed bytes (the whole remaining buffer for an unterminated string,
otherwise the single offending character) and the scan resumes after
them. -/
def lexFuel : Nat → List Char → Nat → List Item
  | 0, _, _ => []
  | _ + 1, [], _ => []
  | fuel + 1, c :: rest, pos =>
    if isSkip c then lexFuel fuel rest (pos + 1)
    else
      match pickBest (c :: rest) with
      | some (t, l) =>
        ⟨some t, pos, pos + l⟩ :: lexFuel fuel ((c :: rest).drop l) (pos + l)
      | none =>
        let e := if c == '"' then rest.length + 1 else 1
        ⟨none, pos, pos + e⟩ :: lexFuel fuel ((c :: rest).drop e) (pos + e)

/-- The full spanned item sequence of a buffer. -/
def lex (s : List Char) : List Item := lexFuel s.length s 0

/-- An item is a successfully matched token (not a logos `Err`). -/
def isOk (it : Item) : Bool := it.tok.isSome

/-- Lexing succeeded: every emitted item is a token. -/
def lexOk (s : List Char) : Bool := (lex s).all isOk

/-- The bytes of `s` covered by the half-open span `[a, b)`. -/
def sliceSpan (s : List Char) (a b : Nat) : List Char := (s.drop a).take (b - a)

/-- Shift an item's span by `d` positions. -/
def shiftItem (d : Nat) (it : Item) : Item :=
  ⟨it.tok, it.start + d, it.stop + d⟩

/-- Interleave whitespace runs and token texts:
`ws0 ++ t0 ++ ws1 ++ t1 ++ ... ++ wsn`. -/
def interleave : List (List Char) → List (List Char) → List Char
  | [], _ => []
  | w :: ws, [] => w ++ interleave ws []
  | w :: ws, t :: ts => w ++ t ++ interleave ws ts

/-- The file-system capability record from `fsutil.rs`: six injected
functions.  Paths and file contents are modelled as `List Char`. -/
structure FSUtil where
  read_file : List Char → Option (List Char)
  file_exists : List Char → Bool
  file_is_directory : List Char → Bool
  path_join : List Char → List Char → List Char
  parent_directory : List Char → List Char
  path_is_absolute : List Char → Bool

/-- `FSUtil::import_path`: get the parent directory of `source_path` and
join it with `path`. -/
def FSUtil.import_path (u : FSUtil) (source_path path : List Char) : List Char :=
  u.path_join (u.parent_directory source_path) path

/-- A Unix path is absolute when it starts with a separator
(`Path::is_absolute` restricted to Unix, as used by `Path::join`). -/
def pathIsAbsoluteRaw (p : List Char) : Bool := p.head? == some '/'

/-- Rust `Path::new(base).join(path)` on Unix: an absolute `path` replaces
`base`; otherwise `path` is appended, inserting a separator unless `base`
is empty or already ends with one. -/
def pathJoinRaw (base p : List Char) : List Char :=
  if pathIsAbsoluteRaw p then p
  else if base == [] then p
  else if base.getLast? == some '/' then base ++ p
  else base ++ '/' :: p

/-- Split a path into its `/`-separated pieces (empty pieces retained). -/
def splitSlash : List Char → List (List Char)
  | [] => [[]]
  | c :: rest =>
    if c = '/' then [] :: splitSlash rest
    else
      match splitSlash rest with
      | [] => [[c]]
      | seg :: segs => (c :: seg) :: segs

/-- One step of the `path_clean` stack: empty and `.` segments vanish;
`..` pops a normal segment, is dropped at an absolute root, and is kept
when there is nothing to pop in a relative path. -/
def cleanStep (abs : Bool) (stack : List (List Char)) (seg : List Char) :
    List (List Char) :=
  if seg = [] || seg = ['.'] then stack
  else if seg = ['.', '.'] then
    match stack with
    | [] => if abs then [] else [seg]
    | top :: rest => if top = ['.', '.'] then seg :: stack else rest
  else seg :: stack

/-- Rejoin segments with `/`. -/
def joinSlash : List (List Char) → List Char
  | [] => []
  | [seg] => seg
  | seg :: segs => seg ++ '/' :: joinSlash segs

/-- The `path_clean` crate's `clean` (Unix): collapse `.` and `..`
segments and redundant separators; an empty result becomes `.`
(or `/` for an absolute path). -/
def pathClean (p : List Char) : List Char :=
  let abs := p.head? == some '/'
  let stack := (splitSlash p).foldl (cleanStep abs) []
  let body := joinSlash stack.reverse
  if abs then (if body = [] then ['/'] else '/' :: body)
  else (if body = [] then ['.'] else body)

/-- `path_join` from `default.rs`: `Path::new(base).join(path).clean()`. -/
def path_join (base p : List Char) : List Char :=
  pathClean (pathJoinRaw base p)

/-- Drop separators from the end of a path. -/
def dropTrailingSlashes (p : List Char) : List Char :=
  (p.reverse.dropWhile (fun c => c == '/')).reverse

/-- `parent_directory` from `default.rs`: `PathBuf::from(path)` followed
by `pop()`.  `pop` truncates to `Path::parent()`: trailing separators and
the final component are removed; the result is empty for a single
relative component, the root stays the root, and a path that is empty or
all separators has no parent and is returned unchanged. -/
def parent_directory (p : List Char) : List Char :=
  let t := dropTrailingSlashes p
  if t.isEmpty then p
  else
    let front := (t.reverse.dropWhile (fun c => c != '/')).reverse
    if front.isEmpty then []
    else
      let q := dropTrailingSlashes front
      if q.isEmpty then ['/'] else q

/-! ## Basic facts about `bestLen` -/

theorem bestLen_some {p : Nat → Bool} {n l : Nat} (h : bestLen p n = some l) :
    p l = true ∧ 1 ≤ l ∧ l ≤ n := by
  induction n with
  | zero => simp [bestLen] at h
  | succ m ih =>
    rw [bestLen] at h
    split at h
    · cases h
      exact ⟨by assumption, by omega, Nat.le_refl _⟩
    · rcases ih h with ⟨h1, h2, h3⟩
      exact ⟨h1, h2, by omega⟩

theorem bestLen_eq_some {p : Nat → Bool} {n l : Nat} (hp : p l = true)
    (h1 : 1 ≤ l) (h2 : l ≤ n) (hmax : ∀ j, l < j → j ≤ n → p j = false) :
    bestLen p n = some l := by
  induction n with
  | zero => omega
  | succ m ih =>
    rw [bestLen]
    by_cases hc : p (m + 1) = true
    · have hlm : l = m + 1 := by
        by_contra hne
        have : l < m + 1 := by omega
        rw [hmax (m + 1) this (Nat.le_refl _)] at hc
        exact absurd hc (by simp)
      rw [if_pos hc, hlm]
    · rw [if_neg hc]
      have hl : l ≤ m := by
        by_contra hgt
        have : l = m + 1 := by omega
        rw [this] at hp
        exact hc hp
      exact ih hl (fun j hj hj2 => hmax j hj (by omega))

theorem bestLen_eq_none {p : Nat → Bool} {n : Nat}
    (h : ∀ j, 1 ≤ j → j ≤ n → p j = false) : bestLen p n = none := by
  induction n with
  | zero => rfl
  | succ m ih =>
    rw [bestLen, if_neg]
    · exact ih (fun j h1 h2 => h j h1 (by omega))
    · rw [h (m + 1) (by omega) (Nat.le_refl _)]
      simp

theorem ruleBest_some {r : Rule} {s : List Char} {l : Nat}
    (h : ruleBest r s = some l) :
    r.lang (s.take l) = true ∧ 1 ≤ l ∧ l ≤ s.length :=
  bestLen_some h

/-! ## Characterization of `pickBest` -/

/-- Candidate `(l0, p0)` loses strictly to a candidate of length `l` and
priority `p`. -/
def Beats (l p l0 p0 : Nat) : Prop := l0 < l ∨ (l0 = l ∧ p0 < p)

theorem stepRule_best_none {s : List Char} {acc : Option (Token × Nat × Nat)}
    {r : Rule} (h : ruleBest r s = none) : stepRule s acc r = acc := by
  simp [stepRule, h]

theorem stepRule_none {s : List Char} {r : Rule} {l' : Nat}
    (h : ruleBest r s = some l') : stepRule s none r = some (r.tok, l', r.prio) := by
  simp [stepRule, h]

theorem stepRule_keep {s : List Char} {r : Rule} {t0 : Token} {l0 p0 l' : Nat}
    (h : ruleBest r s = some l')
    (hc : ¬(l0 < l' ∨ (l0 = l' ∧ p0 < r.prio))) :
    stepRule s (some (t0, l0, p0)) r = some (t0, l0, p0) := by
  simp only [stepRule, h]
  rw [if_neg hc]

theorem stepRule_take {s : List Char} {r : Rule} {t0 : Token} {l0 p0 l' : Nat}
    (h : ruleBest r s = some l')
    (hc : l0 < l' ∨ (l0 = l' ∧ p0 < r.prio)) :
    stepRule s (some (t0, l0, p0)) r = some (r.tok, l', r.prio) := by
  simp only [stepRule, h]
  rw [if_pos hc]

theorem foldl_stepRule_none {s : List Char} {rs : List Rule}
    (h : ∀ r ∈ rs, ruleBest r s = none) :
    rs.foldl (stepRule s) none = none := by
  induction rs with
  | nil => rfl
  | cons r rs ih =>
    rw [List.foldl_cons, stepRule_best_none (h r (List.mem_cons_self r rs))]
    exact ih (fun r' hr' => h r' (List.mem_cons_of_mem _ hr'))

theorem pickBest_eq_none {s : List Char}
    (h : ∀ r ∈ rules, ruleBest r s = none) : pickBest s = none := by
  rw [pickBest, foldl_stepRule_none h]
  rfl

theorem foldl_winner (s : List Char) (t : Token) (l p : Nat)
    (rs : List Rule) :
    ∀ acc : Option (Token × Nat × Nat),
    (∀ r ∈ rs, ∀ l', ruleBest r s = some l' →
      Beats l p l' r.prio ∨ (l' = l ∧ r.prio = p ∧ r.tok = t)) →
    ((∃ r ∈ rs, ruleBest r s = some l ∧ r.prio = p ∧ r.tok = t) ∨
      acc = some (t, l, p)) →
    (acc = none ∨ acc = some (t, l, p) ∨
      ∃ t0 l0 p0, acc = some (t0, l0, p0) ∧ Beats l p l0 p0) →
    rs.foldl (stepRule s) acc = some (t, l, p) := by
  induction rs with
  | nil =>
    intro acc hall hex hacc
    rcases hex with ⟨r, hr, _⟩ | rfl
    · exact absurd hr (List.not_mem_nil r)
    · rfl
  | cons r rs ih =>
    intro acc hall hex hacc
    rw [List.foldl_cons]
    have hall' : ∀ r' ∈ rs, ∀ l', ruleBest r' s = some l' →
        Beats l p l' r'.prio ∨ (l' = l ∧ r'.prio = p ∧ r'.tok = t) :=
      fun r' hr' => hall r' (List.mem_cons_of_mem _ hr')
    cases hcb : ruleBest r s with
    | none =>
      rw [stepRule_best_none hcb]
      apply ih acc hall' _ hacc
      rcases hex with ⟨r', hr', hb', hp', ht'⟩ | rfl
      · rcases List.mem_cons.mp hr' with rfl | hmem
        · rw [hcb] at hb'; cases hb'
        · exact Or.inl ⟨r', hmem, hb', hp', ht'⟩
      · exact Or.inr rfl
    | some l' =>
      -- the winner cannot be `r` when the candidate of `r` loses strictly
      have hnotr : Beats l p l' r.prio →
          ((∃ r' ∈ r :: rs, ruleBest r' s = some l ∧ r'.prio = p ∧ r'.tok = t) →
            ∃ r' ∈ rs, ruleBest r' s = some l ∧ r'.prio = p ∧ r'.tok = t) := by
        rintro hbeats ⟨r', hr', hb', hp', ht'⟩
        rcases List.mem_cons.mp hr' with rfl | hmem
        · rw [hcb] at hb'
          cases hb'
          rw [hp'] at hbeats
          rcases hbeats with h1 | ⟨h1, h2⟩ <;> omega
        · exact ⟨r', hmem, hb', hp', ht'⟩
      rcases hall r (List.mem_cons_self r rs) l' hcb with hbeats | ⟨rfl, hp, ht⟩
      · rcases hacc with rfl | rfl | ⟨t0, l0, p0, rfl, hb0⟩
        · -- accumulator empty: the loser candidate enters, still beaten
          have hex' := hnotr hbeats (hex.resolve_right (by intro h; cases h))
          rw [stepRule_none hcb]
          exact ih _ hall' (Or.inl hex')
            (Or.inr (Or.inr ⟨r.tok, l', r.prio, rfl, hbeats⟩))
        · -- accumulator already holds the winner: it survives
          rw [stepRule_keep hcb (by rcases hbeats with h1 | ⟨h1, h2⟩ <;> omega)]
          exact ih _ hall' (Or.inr rfl) (Or.inr (Or.inl rfl))
        · -- accumulator holds a beaten candidate; either one may stay, both beaten
          have hex' : ∃ r' ∈ rs, ruleBest r' s = some l ∧ r'.prio = p ∧ r'.tok = t := by
            apply hnotr hbeats
            rcases hex with h | heq
            · exact h
            · cases heq
              rcases hb0 with h1 | ⟨h1, h2⟩ <;> omega
          by_cases hcond : l0 < l' ∨ (l0 = l' ∧ p0 < r.prio)
          · rw [stepRule_take hcb hcond]
            exact ih _ hall' (Or.inl hex')
              (Or.inr (Or.inr ⟨r.tok, l', r.prio, rfl, hbeats⟩))
          · rw [stepRule_keep hcb hcond]
            exact ih _ hall' (Or.inl hex')
              (Or.inr (Or.inr ⟨t0, l0, p0, rfl, hb0⟩))
      · -- the candidate of `r` is the winner itself
        rcases hacc with rfl | rfl | ⟨t0, l0, p0, rfl, hb0⟩
        · rw [stepRule_none hcb, hp, ht]
          exact ih _ hall' (Or.inr rfl) (Or.inr (Or.inl rfl))
        · rw [stepRule_keep hcb (by omega)]
          exact ih _ hall' (Or.inr rfl) (Or.inr (Or.inl rfl))
        · rw [stepRule_take hcb (by rcases hb0 with h1 | ⟨h1, h2⟩ <;> omega), hp, ht]
          exact ih _ hall' (Or.inr rfl) (Or.inr (Or.inl rfl))

theorem pickBest_eq_winner {s : List Char} {t : Token} {l p : Nat}
    (hex : ∃ r ∈ rules, ruleBest r s = some l ∧ r.prio = p ∧ r.tok = t)
    (hall : ∀ r ∈ rules, ∀ l', ruleBest r s = some l' →
      Beats l p l' r.prio ∨ (l' = l ∧ r.prio = p ∧ r.tok = t)) :
    pickBest s = some (t, l) := by
  rw [pickBest, foldl_winner s t l p rules none hall (Or.inl hex) (Or.inl rfl)]
  rfl

/-! ## Decomposing membership in the rule list -/

theorem mem_rules {r : Rule} (h : r ∈ rules) :
    (∃ q ∈ kwTable, r = ⟨q.2, 2 * q.1.length, kwLang q.1⟩) ∨
    (∃ q ∈ opTable, r = ⟨q.2, 2, opLang q.1⟩) ∨
    r = identRule ∨ r = regexRule ∨ r = stringRule ∨ r = lineCommentRule := by
  rw [rules] at h
  rcases List.mem_append.mp h with h1 | h2
  · rcases List.mem_append.mp h1 with hk | ho
    · rcases List.mem_map.mp hk with ⟨q, hq, heq⟩
      exact Or.inl ⟨q, hq, heq.symm⟩
    · rcases List.mem_map.mp ho with ⟨q, hq, heq⟩
      exact Or.inr (Or.inl ⟨q, hq, heq.symm⟩)
  · simp only [List.mem_cons, List.not_mem_nil, or_false] at h2
    tauto

/-! ## What membership in each rule language implies -/

theorem kwLang_eq {kw w : List Char} (h : kwLang kw w = true) : w = kw := by
  simpa [kwLang] using h

theorem opLang_eq {c : Char} {w : List Char} (h : opLang c w = true) : w = [c] := by
  simpa [opLang] using h

theorem identLang_parts {w : List Char} (h : identLang w = true) :
    ∃ c rest, w = c :: rest ∧ isAlpha c = true ∧ rest.all isIdentCont = true := by
  cases w with
  | nil => simp [identLang] at h
  | cons c rest =>
    rw [identLang, Bool.and_eq_true] at h
    exact ⟨c, rest, rfl, h.1, h.2⟩

theorem regexLang_parts {w : List Char} (h : regexLang w = true) :
    w.head? = some '/' ∧ 3 ≤ w.length ∧ w.getLast? = some '/' ∧
      ∀ c ∈ (w.drop 1).dropLast, c ≠ '\n' := by
  rw [regexLang] at h
  simp only [Bool.and_eq_true, beq_iff_eq, decide_eq_true_eq, List.all_eq_true,
    bne_iff_ne, ne_eq] at h
  exact ⟨h.1.1.1, h.1.1.2, h.1.2, h.2⟩

theorem stringLang_parts {w : List Char} (h : stringLang w = true) :
    w.head? = some '"' ∧ 2 ≤ w.length ∧ w.getLast? = some '"' ∧
      stringBody ((w.drop 1).dropLast) = true := by
  rw [stringLang] at h
  simp only [Bool.and_eq_true, beq_iff_eq, decide_eq_true_eq] at h
  exact ⟨h.1.1.1, h.1.1.2, h.1.2, h.2⟩

theorem lineCommentLang_parts {w : List Char} (h : lineCommentLang w = true) :
    w.take 2 = ['/', '/'] ∧ ∀ c ∈ w.drop 2, c ≠ '\n' := by
  rw [lineCommentLang] at h
  simp only [Bool.and_eq_true, beq_iff_eq, List.all_eq_true, bne_iff_ne, ne_eq] at h
  exact h

theorem head?_of_take_two {w : List Char} (h : w.take 2 = ['/', '/']) :
    w.head? = some '/' := by
  cases w with
  | nil => simp at h
  | cons c rest =>
    simp only [List.take_succ_cons, List.cons.injEq] at h
    rw [List.head?_cons, h.1]

/-! ## Head-based emptiness of `ruleBest` -/

theorem head?_take {s : List Char} {l : Nat} (h : 1 ≤ l) :
    (s.take l).head? = s.head? := by
  cases s with
  | nil => simp
  | cons c rest =>
    cases l with
    | zero => omega
    | succ m => simp

theorem ruleBest_eq_none_of_head {r : Rule} {c : Char} {s : List Char}
    (h : ∀ w, r.lang w = true → w.head? ≠ some c) :
    ruleBest r (c :: s) = none := by
  apply bestLen_eq_none
  intro j h1 _
  cases hl : r.lang ((c :: s).take j) with
  | false => rfl
  | true =>
    exfalso
    apply h _ hl
    rw [head?_take h1, List.head?_cons]

/-! ## Elementary facts about the scan loop -/

theorem lexFuel_nil (f pos : Nat) : lexFuel f [] pos = [] := by
  cases f <;> rfl

theorem lexFuel_shift (f : Nat) : ∀ (s : List Char) (pos d : Nat),
    lexFuel f s (pos + d) = (lexFuel f s pos).map (shiftItem d) := by
  induction f with
  | zero => intro s pos d; rfl
  | succ f ih =>
    intro s pos d
    cases s with
    | nil => rfl
    | cons c rest =>
      by_cases hc : isSkip c = true
      · simp only [lexFuel, if_pos hc]
        have harr : pos + d + 1 = (pos + 1) + d := by omega
        rw [harr, ih]
      · simp only [lexFuel, if_neg hc]
        cases hp : pickBest (c :: rest) with
        | some tl =>
          obtain ⟨t, l⟩ := tl
          simp only [List.map_cons]
          congr 1
          · simp only [shiftItem]
            congr 1
            omega
          · have harr : pos + d + l = (pos + l) + d := by omega
            rw [harr, ih]
        | none =>
          simp only [List.map_cons]
          generalize (if c == '"' then rest.length + 1 else 1) = e
          congr 1
          · simp only [shiftItem]
            congr 1
            omega
          · have harr : pos + d + e = (pos + e) + d := by omega
            rw [harr, ih]

theorem lex_shift (s : List Char) (f d : Nat) :
    lexFuel f s d = (lexFuel f s 0).map (shiftItem d) := by
  have h := lexFuel_shift f s 0 d
  rwa [Nat.zero_add] at h

/-! ## Model validation against the tests shipped in the sources -/

/-- The path model reproduces every Unix-branch assertion of the tests in
`default.rs` about `path_join` and `parent_directory`. -/
theorem path_model_matches_source_tests :
    parent_directory "".toList = "".toList ∧
    parent_directory "src".toList = "".toList ∧
    parent_directory "src/".toList = "".toList ∧
    parent_directory "src/fsutil/".toList = "src".toList ∧
    parent_directory "src/fsutil/default.rs".toList = "src/fsutil".toList ∧
    parent_directory "src/fsutil/default.rs/".toList = "src/fsutil".toList ∧
    parent_directory "src/fsutil/default.rs///".toList = "src/fsutil".toList ∧
    parent_directory "/src/fsutil/default.rs///".toList = "/src/fsutil".toList ∧
    parent_directory "/".toList = "/".toList ∧
    path_join "src".toList "fsutil/default.rs".toList = "src/fsutil/default.rs".toList ∧
    path_join "src".toList "fsutil/../fsutil/default.rs".toList = "src/fsutil/default.rs".toList ∧
    path_join "src".toList "".toList = "src".toList ∧
    path_join "".toList "fsutil/default.rs".toList = "fsutil/default.rs".toList := by
  decide

/-- The lexer model reproduces the end-to-end example of the specification:
`model User \x7b id: String, \x7d` gives the expected kind sequence. -/
theorem lex_matches_spec_example :
    (lex "model User \x7b id: String, \x7d".toList).map Item.tok =
      [some Token.Model, some Token.Identifier, some Token.BraceOpen,
       some Token.Identifier, some Token.Colon, some Token.Identifier,
       some Token.Comma, some Token.BraceClose] := by
  decide

/-! ## Claim C4 -/

/-- Claim C4: on the four-byte input consisting of a double quote followed
by `abc`, the scan produces a single failure item whose span starts at the
opening offset 0 (and covers the unterminated literal to the end of the
buffer), and no token is emitted for the literal. -/
theorem c4_unterminated_string :
    lex ('"' :: "abc".toList) = [⟨none, 0, 4⟩] ∧
    (lex ('"' :: "abc".toList)).filter isOk = [] := by
  decide

/-! ## Claim C6 -/

/-- Claim C6: the six-byte input `"a\"b"` (a string literal with an
escaped quote) is lexed as exactly one `String` token covering the whole
literal, not two shorter tokens split at the escape. -/
theorem c6_escaped_quote :
    lex "\"a\\\"b\"".toList = [⟨some Token.String, 0, 6⟩] ∧
    "\"a\\\"b\"".toList.length = 6 := by
  decide

/-! ## Claim C7 -/

/-- Claim C7: for every `FSUtil` instance, whatever functions are
injected, `import_path source path` is exactly `path_join` of
`parent_directory source` and `path`. -/
theorem c7_import_path (u : FSUtil) (source_path path : List Char) :
    u.import_path source_path path =
      u.path_join (u.parent_directory source_path) path := rfl

/-! ## Claim C9 -/

/-- Claim C9: the default `parent_directory` returns the parent of a
multi-component path, maps the root `/` to itself, and returns the empty
string for a single-component path. -/
theorem c9_parent_directory :
    parent_directory "src/fsutil/x".toList = "src/fsutil".toList ∧
    parent_directory "/".toList = "/".toList ∧
    parent_directory "src".toList = "".toList := by
  decide

/-! ## Claim C3 (counterexample part) -/

/-- Counterexample to claim C3: on the input `@ a` the failure at offset 0
is not terminal — the scan emits the failure item for `@` and then a
further `Identifier` token for `a`.  The claim asserts that no tokens are
produced after a lexical failure; the second item refutes it. -/
theorem c3_counterexample :
    lex "@ a".toList = [⟨none, 0, 1⟩, ⟨some Token.Identifier, 2, 3⟩] ∧
    ((lex "@ a".toList).getLast?.map isOk = some true) := by
  decide

/-! ## Claim C5 (counterexample part) -/

/-- Counterexample to claim C5: the input `//a/` is a line beginning with
`//`, yet the lexer emits a `Regex` token, not a `LineComment`: both rules
match the whole slice and the `Regex` rule has the higher logos priority. -/
theorem c5_counterexample :
    lex "//a/".toList = [⟨some Token.Regex, 0, 4⟩] := by
  decide

/-! ## Claim C8 (counterexample part) -/

/-- Counterexample to claim C8: `path_join "" path = path` fails for the
path `./x`, because the result is cleaned: the default `path_join` returns
`x`. -/
theorem c8_counterexample :
    path_join "".toList "./x".toList = "x".toList ∧
    ¬ path_join "".toList "./x".toList = "./x".toList := by
  decide

/-! ## Claim C10 -/

theorem pickBest_cr (rest : List Char) : pickBest ('\x0d' :: rest) = none := by
  apply pickBest_eq_none
  intro r hr
  rcases mem_rules hr with ⟨q, hq, rfl⟩ | ⟨q, hq, rfl⟩ | rfl | rfl | rfl | rfl
  · apply ruleBest_eq_none_of_head
    intro w hw
    rw [kwLang_eq hw]
    have hk : ∀ q ∈ kwTable, q.1.head? ≠ some '\x0d' := by decide
    exact hk q hq
  · apply ruleBest_eq_none_of_head
    intro w hw
    rw [opLang_eq hw]
    simp only [List.head?_cons, ne_eq, Option.some.injEq]
    have ho : ∀ q ∈ opTable, q.1 ≠ '\x0d' := by decide
    exact ho q hq
  · apply ruleBest_eq_none_of_head
    intro w hw
    rcases identLang_parts hw with ⟨c, rest', rfl, ha, _⟩
    simp only [List.head?_cons, ne_eq, Option.some.injEq]
    intro hc
    rw [hc] at ha
    exact absurd ha (by decide)
  · apply ruleBest_eq_none_of_head
    intro w hw
    rw [(regexLang_parts hw).1]
    decide
  · apply ruleBest_eq_none_of_head
    intro w hw
    rw [(stringLang_parts hw).1]
    decide
  · apply ruleBest_eq_none_of_head
    intro w hw
    rw [head?_of_take_two (lineCommentLang_parts hw).1]
    decide

/-- Claim C10: the carriage return is not in the skipped-whitespace set
and matches no token rule, so a scan whose next character is `\r` emits a
lexical failure item for that character instead of silently skipping it;
in particular a CRLF line ending between tokens produces a failure item
for the `\r` while the `\n` is skipped. -/
theorem c10_carriage_return :
    isSkip '\x0d' = false ∧
    (∀ rest : List Char, pickBest ('\x0d' :: rest) = none) ∧
    (∀ (f pos : Nat) (rest : List Char),
      (lexFuel (f + 1) ('\x0d' :: rest) pos).head? = some ⟨none, pos, pos + 1⟩) ∧
    lex "a\x0d\nb".toList =
      [⟨some Token.Identifier, 0, 1⟩, ⟨none, 1, 2⟩,
       ⟨some Token.Identifier, 3, 4⟩] := by
  refine ⟨by decide, pickBest_cr, ?_, by decide⟩
  intro f pos rest
  have hskip : isSkip '\x0d' = false := by decide
  have hq : ('\x0d' == '"') = false := by decide
  simp only [lexFuel, hskip, Bool.false_eq_true, if_false, pickBest_cr rest, hq,
    List.head?_cons]

/-! ## Claim C3 (amended part) -/

/-- Claim C3 as amended: a failure on an unrecognized character is not
terminal for the scan.  The lexer emits a failure item spanning the single
offending character and resumes scanning immediately after it, producing
exactly the items of the rest of the buffer with spans shifted by one. -/
theorem c3_failure_not_terminal (c : Char) (rest : List Char)
    (hskip : isSkip c = false) (hpick : pickBest (c :: rest) = none)
    (hq : c ≠ '"') :
    lex (c :: rest) = ⟨none, 0, 1⟩ :: (lex rest).map (shiftItem 1) := by
  have hq' : (c == '"') = false := beq_eq_false_iff_ne.mpr hq
  show lexFuel (c :: rest).length (c :: rest) 0 = _
  rw [List.length_cons]
  simp only [lexFuel, hskip, Bool.false_eq_true, if_false, hpick, hq',
    List.drop_succ_cons, List.drop_zero, Nat.zero_add]
  rw [lex_shift]
  rfl

/-- Witness for the amended claim C3 at the concrete input `@a`. -/
theorem c3_witness :
    (isSkip '@' = false ∧ pickBest ('@' :: "a".toList) = none ∧ '@' ≠ '"') ∧
    lex ('@' :: "a".toList) = ⟨none, 0, 1⟩ :: (lex "a".toList).map (shiftItem 1) :=
  ⟨⟨by decide, by decide, by decide⟩,
    c3_failure_not_terminal '@' "a".toList (by decide) (by decide) (by decide)⟩

/-! ## Claim C1 -/

theorem ident_pickBest (s : List Char) (hident : identLang s = true)
    (hnkw : ∀ q ∈ kwTable, s ≠ q.1) :
    pickBest s = some (Token.Identifier, s.length) := by
  rcases identLang_parts hident with ⟨c, rest, hs, ha, hrest⟩
  have hlen : 1 ≤ s.length := by rw [hs]; simp
  have hbident : ruleBest identRule s = some s.length := by
    apply bestLen_eq_some
    · show identLang (s.take s.length) = true
      rw [List.take_length]
      exact hident
    · exact hlen
    · exact Nat.le_refl _
    · intro j hj hj2
      omega
  apply pickBest_eq_winner (p := 2)
  · exact ⟨identRule, by rw [rules]; simp, hbident, rfl, rfl⟩
  · intro r hr l' hb
    rcases mem_rules hr with ⟨q, hq, rfl⟩ | ⟨q, hq, rfl⟩ | rfl | rfl | rfl | rfl
    · -- a keyword matches only its own text, which is not all of `s`
      obtain ⟨hw, h1, h2⟩ := ruleBest_some hb
      have htake : s.take l' = q.1 := kwLang_eq hw
      by_cases hl : l' = s.length
      · exfalso
        rw [hl, List.take_length] at htake
        exact hnkw q hq htake
      · exact Or.inl (Or.inl (by omega))
    · -- no operator character is alphabetic
      obtain ⟨hw, h1, h2⟩ := ruleBest_some hb
      have htake : s.take l' = [q.1] := opLang_eq hw
      exfalso
      have hhead : s.head? = some q.1 := by
        rw [← head?_take h1, htake]
        rfl
      rw [hs, List.head?_cons] at hhead
      injection hhead with hc
      have hopfact : ∀ q ∈ opTable, isAlpha q.1 = false := by decide
      rw [hc] at ha
      rw [hopfact q hq] at ha
      cases ha
    · -- the identifier rule itself is the winner
      rw [hbident] at hb
      cases hb
      exact Or.inr ⟨rfl, rfl, rfl⟩
    · -- a regex match starts with a slash, not a letter
      obtain ⟨hw, h1, h2⟩ := ruleBest_some hb
      exfalso
      have hhead := (regexLang_parts hw).1
      rw [head?_take h1, hs, List.head?_cons] at hhead
      injection hhead with hc
      rw [hc] at ha
      exact absurd ha (by decide)
    · -- a string match starts with a quote, not a letter
      obtain ⟨hw, h1, h2⟩ := ruleBest_some hb
      exfalso
      have hhead := (stringLang_parts hw).1
      rw [head?_take h1, hs, List.head?_cons] at hhead
      injection hhead with hc
      rw [hc] at ha
      exact absurd ha (by decide)
    · -- a line comment starts with a slash, not a letter
      obtain ⟨hw, h1, h2⟩ := ruleBest_some hb
      exfalso
      have hhead := head?_of_take_two (lineCommentLang_parts hw).1
      rw [head?_take h1, hs, List.head?_cons] at hhead
      injection hhead with hc
      rw [hc] at ha
      exact absurd ha (by decide)

theorem lex_single_ident (s : List Char) (hident : identLang s = true)
    (hnkw : ∀ q ∈ kwTable, s ≠ q.1) :
    lex s = [⟨some Token.Identifier, 0, s.length⟩] := by
  rcases identLang_parts hident with ⟨c, rest, rfl, ha, hrest⟩
  have hskip : isSkip c = false := by
    cases hsk : isSkip c
    · rfl
    · exfalso
      have hcc : ((c = ' ' ∨ c = '\t') ∨ c = '\n') ∨ c = '\x0c' := by
        simpa [isSkip] using hsk
      rcases hcc with ((rfl | rfl) | rfl) | rfl <;> exact absurd ha (by decide)
  have hpick := ident_pickBest (c :: rest) hident hnkw
  show lexFuel (c :: rest).length (c :: rest) 0 = _
  rw [List.length_cons]
  simp only [lexFuel, hskip, Bool.false_eq_true, if_false, hpick, Nat.zero_add,
    List.length_cons, List.drop_succ_cons, List.drop_length, lexFuel_nil]

/-- Claim C1: an input that is exactly one of the thirteen reserved words
lexes to the corresponding keyword token (never `Identifier`); an input
that is a reserved word followed by one or more identifier-continuation
characters lexes to a single `Identifier` token covering the whole word. -/
theorem c1_reserved_words :
    (∀ q ∈ kwTable, lex q.1 = [⟨some q.2, 0, q.1.length⟩]) ∧
    (∀ q ∈ kwTable, ∀ t : List Char, t ≠ [] → t.all isIdentCont = true →
      lex (q.1 ++ t) = [⟨some Token.Identifier, 0, (q.1 ++ t).length⟩]) := by
  constructor
  · decide
  · intro q hq t ht hcont
    have hfacts : ∀ q ∈ kwTable, q.1 ≠ [] ∧ identLang q.1 = true ∧
        q.1.all isIdentCont = true := by decide
    obtain ⟨hne, hid, hallkw⟩ := hfacts q hq
    have hident : identLang (q.1 ++ t) = true := by
      rcases identLang_parts hid with ⟨c, r, hq1, hac, hrc⟩
      rw [hq1, List.cons_append]
      simp only [identLang, Bool.and_eq_true, List.all_append]
      exact ⟨hac, hrc, hcont⟩
    have hnkw : ∀ q' ∈ kwTable, q.1 ++ t ≠ q'.1 := by
      have hpre : ∀ a ∈ kwTable, ∀ b ∈ kwTable, a.1.length < b.1.length →
          b.1.take a.1.length ≠ a.1 := by decide
      intro q' hq' heq
      have h1 : q'.1.take q.1.length = q.1 := by
        rw [← heq]
        exact List.take_left _ _
      have h2 : q.1.length < q'.1.length := by
        rw [← heq, List.length_append]
        have : t.length ≠ 0 := by simpa using ht
        omega
      exact hpre q hq q' hq' h2 h1
    exact lex_single_ident (q.1 ++ t) hident hnkw

/-- Witness for claim C1: `model` lexes as the `Model` keyword and
`models` as a single six-character identifier. -/
theorem c1_witness :
    (("model".toList, Token.Model) ∈ kwTable ∧ "s".toList ≠ [] ∧
      "s".toList.all isIdentCont = true) ∧
    lex "model".toList = [⟨some Token.Model, 0, 5⟩] ∧
    lex ("model".toList ++ "s".toList) = [⟨some Token.Identifier, 0, 6⟩] := by
  refine ⟨⟨by decide, by decide, by decide⟩, ?_, ?_⟩
  · exact c1_reserved_words.1 ("model".toList, Token.Model) (by decide)
  · exact c1_reserved_words.2 ("model".toList, Token.Model) (by decide)
      "s".toList (by decide) (by decide)

/-! ## Claim C5 (amended part) -/

theorem lineComment_pickBest (body rest : List Char)
    (hbody : ∀ c ∈ body, c ≠ '\n')
    (hlast : body.getLast? ≠ some '/')
    (hrest : rest = [] ∨ rest.head? = some '\n') :
    pickBest ('/' :: '/' :: (body ++ rest)) =
      some (Token.LineComment, 2 + body.length) := by
  have hslen : ('/' :: '/' :: (body ++ rest)).length = body.length + rest.length + 2 := by
    simp [List.length_append]
  have htake : ('/' :: '/' :: (body ++ rest)).take (2 + body.length) = '/' :: '/' :: body := by
    have h2 : 2 + body.length = body.length + 1 + 1 := by omega
    rw [h2, List.take_succ_cons, List.take_succ_cons, List.take_left]
  have hcomment : ruleBest lineCommentRule ('/' :: '/' :: (body ++ rest)) =
      some (2 + body.length) := by
    apply bestLen_eq_some
    · show lineCommentLang _ = true
      rw [htake, lineCommentLang]
      have h1 : ('/' :: '/' :: body).take 2 = ['/', '/'] := rfl
      have h2 : ('/' :: '/' :: body).drop 2 = body := rfl
      rw [h1, h2]
      simp only [beq_self_eq_true, Bool.true_and, List.all_eq_true, bne_iff_ne, ne_eq]
      exact hbody
    · omega
    · rw [hslen]; omega
    · intro j hj hj2
      rw [hslen] at hj2
      rcases hrest with rfl | hrh
      · simp only [List.length_nil] at hj2
        omega
      · cases rest with
        | nil => simp at hrh
        | cons c0 r' =>
          simp only [List.head?_cons, Option.some.injEq] at hrh
          subst hrh
          obtain ⟨j2, rfl⟩ : ∃ j2, j = j2 + 2 := ⟨j - 2, by omega⟩
          cases hlc : lineCommentLang (('/' :: '/' :: (body ++ '\n' :: r')).take (j2 + 2))
          · exact hlc
          · exfalso
            obtain ⟨hp1, hp2⟩ := lineCommentLang_parts hlc
            have hjlt : body.length < j2 := by omega
            have hdrop : (('/' :: '/' :: (body ++ '\n' :: r')).take (j2 + 2)).drop 2 =
                body ++ '\n' :: r'.take (j2 - body.length - 1) := by
              rw [List.take_succ_cons, List.take_succ_cons]
              show (body ++ '\n' :: r').take j2 = _
              obtain ⟨k, hk⟩ : ∃ k, j2 - body.length = k + 1 :=
                ⟨j2 - body.length - 1, by omega⟩
              rw [show j2 - body.length - 1 = k from by omega,
                List.take_append_eq_append_take, List.take_of_length_le (by omega),
                hk, List.take_succ_cons]
            apply hp2 '\n' _ rfl
            rw [hdrop]
            exact List.mem_append_right _ (List.mem_cons_self _ _)
  apply pickBest_eq_winner (p := 4)
  · exact ⟨lineCommentRule, by rw [rules]; simp, hcomment, rfl, rfl⟩
  · intro r hr l' hb
    rcases mem_rules hr with ⟨q, hq, rfl⟩ | ⟨q, hq, rfl⟩ | rfl | rfl | rfl | rfl
    · -- keywords all start with a letter, the buffer starts with a slash
      obtain ⟨hw, h1, h2⟩ := ruleBest_some hb
      exfalso
      have htk := kwLang_eq hw
      have hhead : q.1.head? = some '/' := by
        rw [← htk, head?_take h1]
        rfl
      have hkfact : ∀ q ∈ kwTable, q.1.head? ≠ some '/' := by decide
      exact hkfact q hq hhead
    · -- an operator match has length one, shorter than the comment
      obtain ⟨hw, h1, h2⟩ := ruleBest_some hb
      have htk := opLang_eq hw
      have hlen1 : l' = 1 := by
        have hlg := congrArg List.length htk
        rw [List.length_take, hslen] at hlg
        simp only [List.length_cons, List.length_nil] at hlg
        omega
      exact Or.inl (Or.inl (by omega))
    · -- an identifier starts with a letter, not a slash
      obtain ⟨hw, h1, h2⟩ := ruleBest_some hb
      exfalso
      rcases identLang_parts hw with ⟨c, rest2, hw2, ha, _⟩
      have hhead : (('/' :: '/' :: (body ++ rest)).take l').head? = some c := by
        rw [hw2]
        rfl
      rw [head?_take h1, List.head?_cons] at hhead
      injection hhead with hc
      rw [← hc] at ha
      exact absurd ha (by decide)
    · -- a regex match ends strictly before the end of the comment
      obtain ⟨hw, h1, h2⟩ := ruleBest_some hb
      obtain ⟨hr1, hr2, hr3, hr4⟩ := regexLang_parts hw
      have hwlen : (('/' :: '/' :: (body ++ rest)).take l').length = l' := by
        rw [List.length_take]
        omega
      by_cases hlt : l' < 2 + body.length
      · exact Or.inl (Or.inl hlt)
      · exfalso
        by_cases heq : l' = 2 + body.length
        · -- the match would be exactly the whole comment slice
          cases body with
          | nil =>
            rw [hwlen] at hr2
            simp only [List.length_nil] at heq
            omega
          | cons b bs =>
            rw [heq, htake, List.getLast?_cons_cons, List.getLast?_cons_cons] at hr3
            exact hlast hr3
        · -- the match would run past the newline ending the comment
          have hgt : 2 + body.length < l' := by omega
          rcases hrest with rfl | hrh
          · rw [hslen] at h2
            simp only [List.length_nil] at h2
            omega
          · cases rest with
            | nil => simp at hrh
            | cons c0 r' =>
              simp only [List.head?_cons, Option.some.injEq] at hrh
              subst hrh
              obtain ⟨l2, rfl⟩ : ∃ l2, l' = l2 + 2 := ⟨l' - 2, by omega⟩
              have hl2 : body.length < l2 := by omega
              obtain ⟨k, hk⟩ : ∃ k, l2 - body.length = k + 1 :=
                ⟨l2 - body.length - 1, by omega⟩
              have hwform : ('/' :: '/' :: (body ++ '\n' :: r')).take (l2 + 2) =
                  '/' :: '/' :: (body ++ '\n' :: r'.take k) := by
                rw [List.take_succ_cons, List.take_succ_cons,
                  List.take_append_eq_append_take, List.take_of_length_le (by omega),
                  hk, List.take_succ_cons]
              cases htk2 : r'.take k with
              | nil =>
                -- the newline would be the final character of the regex match
                rw [hwform, htk2] at hr3
                have : ('/' :: '/' :: (body ++ ['\n'])).getLast? = some '\n' := by
                  rw [show '/' :: '/' :: (body ++ ['\n']) =
                      ('/' :: '/' :: body) ++ ['\n'] from by simp,
                    List.getLast?_append]
                  rfl
                rw [this] at hr3
                exact absurd hr3 (by decide)
              | cons d tk' =>
                -- the newline would sit strictly inside the regex match
                apply hr4 '\n' _ rfl
                rw [hwform, htk2]
                show '\n' ∈ (('/' :: (body ++ '\n' :: d :: tk')) : List Char).dropLast
                rw [show ('/' :: (body ++ '\n' :: d :: tk') : List Char) =
                    ('/' :: body) ++ ('\n' :: d :: tk') from by simp,
                  List.dropLast_append_of_ne_nil _ (by simp)]
                exact List.mem_append_right _ (by
                  cases tk' <;> simp [List.dropLast])
    · -- a string starts with a quote, not a slash
      obtain ⟨hw, h1, h2⟩ := ruleBest_some hb
      exfalso
      have hhead := (stringLang_parts hw).1
      rw [head?_take h1, List.head?_cons] at hhead
      exact absurd hhead (by decide)
    · -- the line-comment rule itself carries the winning candidate
      rw [hcomment] at hb
      cases hb
      exact Or.inr ⟨rfl, rfl, rfl⟩

/-- Claim C5 as amended: a line beginning with `//` produces a single
`LineComment` item covering `//` and every character up to the next
newline or end of buffer — also when the body contains further `/`
characters — except in the case the counterexample forces: when the
comment slice itself ends in a `/` (so that the `Regex` rule matches the
same slice and wins on priority).  Amended statement: if the body of the
comment does not end in `/`, the first emitted item is the `LineComment`
covering the whole comment. -/
theorem c5_line_comment (body rest : List Char)
    (hbody : ∀ c ∈ body, c ≠ '\n')
    (hlast : body.getLast? ≠ some '/')
    (hrest : rest = [] ∨ rest.head? = some '\n') :
    (lex ('/' :: '/' :: (body ++ rest))).head? =
      some ⟨some Token.LineComment, 0, 2 + body.length⟩ := by
  have hpick := lineComment_pickBest body rest hbody hlast hrest
  show (lexFuel ('/' :: '/' :: (body ++ rest)).length _ 0).head? = _
  rw [List.length_cons, List.length_cons]
  have hskip : isSkip '/' = false := by decide
  simp only [lexFuel, hskip, Bool.false_eq_true, if_false, hpick, List.head?_cons,
    Nat.zero_add]

/-- Witness for the amended claim C5: the line `//a b` followed by a
newline and `x` begins with a five-character line comment. -/
theorem c5_witness :
    ((∀ c ∈ "a b".toList, c ≠ '\n') ∧ "a b".toList.getLast? ≠ some '/' ∧
      ("\nx".toList = [] ∨ "\nx".toList.head? = some '\n')) ∧
    (lex ('/' :: '/' :: ("a b".toList ++ "\nx".toList))).head? =
      some ⟨some Token.LineComment, 0, 5⟩ :=
  ⟨⟨by decide, by decide, Or.inr (by decide)⟩,
    c5_line_comment "a b".toList "\nx".toList (by decide) (by decide)
      (Or.inr (by decide))⟩

/-! ## Claim C8 (amended part) -/

theorem splitSlash_ne_nil (l : List Char) : splitSlash l ≠ [] := by
  cases l with
  | nil => simp [splitSlash]
  | cons c rest =>
    rw [splitSlash]
    split
    · simp
    · split <;> simp

theorem splitSlash_append_slash (l : List Char) :
    splitSlash (l ++ ['/']) = splitSlash l ++ [[]] := by
  induction l with
  | nil => rfl
  | cons c rest ih =>
    by_cases hc : c = '/'
    · subst hc
      rw [List.cons_append]
      simp [splitSlash, ih]
    · rw [List.cons_append]
      simp only [splitSlash, if_neg hc]
      obtain ⟨s0, ss, hss⟩ : ∃ s0 ss, splitSlash rest = s0 :: ss := by
        cases h : splitSlash rest with
        | nil => exact absurd h (splitSlash_ne_nil rest)
        | cons a b => exact ⟨a, b, rfl⟩
      rw [ih, hss]
      simp

theorem pathClean_append_slash (base : List Char) (hne : base ≠ []) :
    pathClean (base ++ ['/']) = pathClean base := by
  have hhead : (base ++ ['/']).head? = base.head? := by
    cases base with
    | nil => exact absurd rfl hne
    | cons c r => rfl
  have hstep : ∀ (ab : Bool) (st : List (List Char)), cleanStep ab st [] = st :=
    fun ab st => rfl
  simp only [pathClean, hhead, splitSlash_append_slash, List.foldl_append,
    List.foldl_cons, List.foldl_nil, hstep]

theorem path_join_empty_right (base : List Char) :
    path_join base [] = pathClean base := by
  rw [path_join, pathJoinRaw]
  have h1 : pathIsAbsoluteRaw ([] : List Char) = false := rfl
  rw [h1]
  simp only [Bool.false_eq_true, if_false]
  by_cases hb : base = []
  · subst hb
    rfl
  · have hb2 : (base == ([] : List Char)) = false := by
      simp [hb]
    rw [hb2]
    simp only [Bool.false_eq_true, if_false]
    by_cases hl : base.getLast? = some '/'
    · have hl2 : (base.getLast? == some '/') = true := by simp [hl]
      rw [hl2]
      simp only [if_true]
      rw [List.append_nil]
    · have hl2 : (base.getLast? == some '/') = false := by simp [hl]
      rw [hl2]
      simp only [Bool.false_eq_true, if_false]
      exact pathClean_append_slash base hb

theorem path_join_empty_left (p : List Char) : path_join [] p = pathClean p := by
  simp [path_join, pathJoinRaw]

/-- Claim C8 as amended: the default `path_join` cleans its result, so
joining with an empty component yields the `path_clean` normal form of
the other component — which is that component itself exactly when it is
already clean (as in the spec's own examples) — and redundant `.`/`..`
segments collapse: `path_join "src" "fsutil/../fsutil/x" = "src/fsutil/x"`. -/
theorem c8_path_join :
    (∀ base : List Char, path_join base [] = pathClean base) ∧
    (∀ p : List Char, path_join [] p = pathClean p) ∧
    (∀ base : List Char, pathClean base = base → path_join base [] = base) ∧
    (∀ p : List Char, pathClean p = p → path_join [] p = p) ∧
    path_join "src".toList "fsutil/../fsutil/x".toList = "src/fsutil/x".toList :=
  ⟨path_join_empty_right, path_join_empty_left,
    fun base h => (path_join_empty_right base).trans h,
    fun p h => (path_join_empty_left p).trans h,
    by decide⟩

/-- Witness for the amended claim C8 at the clean paths `src` and
`fsutil/x`. -/
theorem c8_witness :
    (pathClean "src".toList = "src".toList ∧
      pathClean "fsutil/x".toList = "fsutil/x".toList) ∧
    path_join "src".toList [] = "src".toList ∧
    path_join [] "fsutil/x".toList = "fsutil/x".toList :=
  ⟨⟨by decide, by decide⟩,
    c8_path_join.2.2.1 "src".toList (by decide),
    c8_path_join.2.2.2.1 "fsutil/x".toList (by decide)⟩

/-! ## Claim C2 -/

theorem pickBest_pos {s : List Char} {t : Token} {l : Nat}
    (h : pickBest s = some (t, l)) : 1 ≤ l ∧ l ≤ s.length := by
  have main : ∀ (rs : List Rule) (acc : Option (Token × Nat × Nat)),
      (acc = none ∨ ∃ t0 l0 p0, acc = some (t0, l0, p0) ∧ 1 ≤ l0 ∧ l0 ≤ s.length) →
      (rs.foldl (stepRule s) acc = none ∨
        ∃ t0 l0 p0, rs.foldl (stepRule s) acc = some (t0, l0, p0) ∧
          1 ≤ l0 ∧ l0 ≤ s.length) := by
    intro rs
    induction rs with
    | nil => intro acc hacc; exact hacc
    | cons r rs ih =>
      intro acc hacc
      rw [List.foldl_cons]
      apply ih
      cases hcb : ruleBest r s with
      | none => rw [stepRule_best_none hcb]; exact hacc
      | some l' =>
        obtain ⟨_, h1, h2⟩ := ruleBest_some hcb
        rcases hacc with rfl | ⟨t0, l0, p0, rfl, hb1, hb2⟩
        · rw [stepRule_none hcb]
          exact Or.inr ⟨r.tok, l', r.prio, rfl, h1, h2⟩
        · by_cases hcond : l0 < l' ∨ (l0 = l' ∧ p0 < r.prio)
          · rw [stepRule_take hcb hcond]
            exact Or.inr ⟨r.tok, l', r.prio, rfl, h1, h2⟩
          · rw [stepRule_keep hcb hcond]
            exact Or.inr ⟨t0, l0, p0, rfl, hb1, hb2⟩
  rcases main rules none (Or.inl rfl) with h0 | ⟨t0, l0, p0, h0, hb1, hb2⟩
  · rw [pickBest, h0] at h
    cases h
  · rw [pickBest, h0] at h
    simp only [Option.map_some'] at h
    cases h
    exact ⟨hb1, hb2⟩

theorem errLen_bounds (c : Char) (rest : List Char) :
    1 ≤ (if c == '"' then rest.length + 1 else 1) ∧
      (if c == '"' then rest.length + 1 else 1) ≤ (c :: rest).length := by
  by_cases hq : (c == '"') = true
  · rw [if_pos hq]
    simp
  · rw [if_neg hq]
    simp

theorem lexFuel_bounds : ∀ (f : Nat) (s : List Char) (pos : Nat), s.length ≤ f →
    ∀ it ∈ lexFuel f s pos,
      pos ≤ it.start ∧ it.start ≤ it.stop ∧ it.stop ≤ pos + s.length := by
  intro f
  induction f with
  | zero =>
    intro s pos h it hit
    rw [show lexFuel 0 s pos = [] from rfl] at hit
    cases hit
  | succ f ih =>
    intro s pos h it hit
    cases s with
    | nil =>
      rw [show lexFuel (f + 1) [] pos = [] from rfl] at hit
      cases hit
    | cons c rest =>
      simp only [List.length_cons] at h
      simp only [lexFuel] at hit
      by_cases hc : isSkip c = true
      · rw [if_pos hc] at hit
        obtain ⟨b1, b2, b3⟩ := ih rest (pos + 1) (by omega) it hit
        refine ⟨by omega, b2, by simp only [List.length_cons]; omega⟩
      · rw [if_neg hc] at hit
        cases hp : pickBest (c :: rest) with
        | some tl =>
          obtain ⟨t, l⟩ := tl
          obtain ⟨hl1, hl2⟩ := pickBest_pos hp
          simp only [List.length_cons] at hl2
          simp only [hp] at hit
          rcases List.mem_cons.mp hit with rfl | hmem
          · refine ⟨Nat.le_refl _, ?_, ?_⟩
            · show pos ≤ pos + l
              omega
            · show pos + l ≤ pos + (c :: rest).length
              simp only [List.length_cons]
              omega
          · have hdl : ((c :: rest).drop l).length ≤ f := by
              rw [List.length_drop]
              simp only [List.length_cons]
              omega
            obtain ⟨b1, b2, b3⟩ := ih _ (pos + l) hdl it hmem
            rw [List.length_drop] at b3
            simp only [List.length_cons] at b3 ⊢
            refine ⟨by omega, b2, by omega⟩
        | none =>
          simp only [hp] at hit
          obtain ⟨he1, he2⟩ := errLen_bounds c rest
          simp only [List.length_cons] at he2
          rcases List.mem_cons.mp hit with rfl | hmem
          · refine ⟨Nat.le_refl _, ?_, ?_⟩
            · show pos ≤ pos + (if c == '"' then rest.length + 1 else 1)
              omega
            · show pos + (if c == '"' then rest.length + 1 else 1) ≤ pos + (c :: rest).length
              simp only [List.length_cons]
              omega
          · have hdl : ((c :: rest).drop (if c == '"' then rest.length + 1 else 1)).length ≤ f := by
              rw [List.length_drop]
              simp only [List.length_cons]
              omega
            obtain ⟨b1, b2, b3⟩ := ih _ _ hdl it hmem
            rw [List.length_drop] at b3
            simp only [List.length_cons] at b3 ⊢
            refine ⟨by omega, b2, by omega⟩

theorem lexFuel_pairwise : ∀ (f : Nat) (s : List Char) (pos : Nat), s.length ≤ f →
    List.Pairwise (fun a b => a.stop ≤ b.start) (lexFuel f s pos) := by
  intro f
  induction f with
  | zero =>
    intro s pos h
    rw [show lexFuel 0 s pos = [] from rfl]
    exact List.Pairwise.nil
  | succ f ih =>
    intro s pos h
    cases s with
    | nil =>
      rw [show lexFuel (f + 1) [] pos = [] from rfl]
      exact List.Pairwise.nil
    | cons c rest =>
      simp only [List.length_cons] at h
      simp only [lexFuel]
      by_cases hc : isSkip c = true
      · rw [if_pos hc]
        exact ih rest (pos + 1) (by omega)
      · rw [if_neg hc]
        cases hp : pickBest (c :: rest) with
        | some tl =>
          obtain ⟨t, l⟩ := tl
          obtain ⟨hl1, hl2⟩ := pickBest_pos hp
          have hdl : ((c :: rest).drop l).length ≤ f := by
            rw [List.length_drop]
            simp only [List.length_cons] at hl2 ⊢
            omega
          refine List.pairwise_cons.mpr ⟨?_, ih _ (pos + l) hdl⟩
          intro b hb
          exact (lexFuel_bounds f _ (pos + l) hdl b hb).1
        | none =>
          obtain ⟨he1, he2⟩ := errLen_bounds c rest
          have hdl : ((c :: rest).drop (if c == '"' then rest.length + 1 else 1)).length ≤ f := by
            rw [List.length_drop]
            simp only [List.length_cons] at he2 ⊢
            omega
          refine List.pairwise_cons.mpr ⟨?_, ih _ _ hdl⟩
          intro b hb
          exact (lexFuel_bounds f _ _ hdl b hb).1

theorem sliceSpan_shift (rest : List Char) (c : Char) (a b : Nat) :
    sliceSpan (c :: rest) (a + 1) (b + 1) = sliceSpan rest a b := by
  simp [sliceSpan, List.drop_succ_cons, Nat.add_sub_add_right]

theorem sliceSpan_drop (s : List Char) (l a b : Nat) :
    sliceSpan s (a + l) (b + l) = sliceSpan (s.drop l) a b := by
  rw [sliceSpan, sliceSpan, List.drop_drop, Nat.add_sub_add_right, Nat.add_comm l a]

theorem interleave_cons_char (c : Char) (w : List Char) (ws ts : List (List Char)) :
    interleave ((c :: w) :: ws) ts = c :: interleave (w :: ws) ts := by
  cases ts <;> simp [interleave]

theorem lexFuel_cover : ∀ (f : Nat) (s : List Char), s.length ≤ f →
    (∀ it ∈ lexFuel f s 0, isOk it = true) →
    ∃ ws : List (List Char), ws.length = (lexFuel f s 0).length + 1 ∧
      (∀ w ∈ ws, ∀ c ∈ w, isSkip c = true) ∧
      interleave ws ((lexFuel f s 0).map (fun it => sliceSpan s it.start it.stop)) = s := by
  intro f
  induction f with
  | zero =>
    intro s h _
    have hs : s = [] := List.length_eq_zero.mp (by omega)
    subst hs
    exact ⟨[[]], rfl, by simp, rfl⟩
  | succ f ih =>
    intro s h hok
    cases s with
    | nil => exact ⟨[[]], rfl, by simp, rfl⟩
    | cons c rest =>
      simp only [List.length_cons] at h
      by_cases hc : isSkip c = true
      · -- a skipped character is prepended to the first whitespace run
        have heq : lexFuel (f + 1) (c :: rest) 0 = (lexFuel f rest 0).map (shiftItem 1) := by
          simp only [lexFuel, if_pos hc, Nat.zero_add]
          rw [lex_shift]
        have hok0 : ∀ it ∈ lexFuel f rest 0, isOk it = true := by
          intro it hit
          have hmem := hok (shiftItem 1 it) (by rw [heq]; exact List.mem_map_of_mem _ hit)
          simpa [isOk, shiftItem] using hmem
        obtain ⟨ws0, hl0, hsk0, hint0⟩ := ih rest (by omega) hok0
        obtain ⟨w, ws', rfl⟩ : ∃ w ws', ws0 = w :: ws' := by
          cases ws0 with
          | nil => simp at hl0
          | cons a b => exact ⟨a, b, rfl⟩
        refine ⟨(c :: w) :: ws', ?_, ?_, ?_⟩
        · rw [heq]
          simp only [List.length_map, List.length_cons] at hl0 ⊢
          omega
        · intro w' hw' c' hc'
          rcases List.mem_cons.mp hw' with rfl | hmem
          · rcases List.mem_cons.mp hc' with rfl | hcm
            · exact hc
            · exact hsk0 w (List.mem_cons_self _ _) c' hcm
          · exact hsk0 w' (List.mem_cons_of_mem _ hmem) c' hc'
        · rw [heq, List.map_map]
          have hmapeq : (lexFuel f rest 0).map
                ((fun it => sliceSpan (c :: rest) it.start it.stop) ∘ shiftItem 1) =
              (lexFuel f rest 0).map (fun it => sliceSpan rest it.start it.stop) := by
            apply List.map_congr_left
            intro it _
            exact sliceSpan_shift rest c it.start it.stop
          rw [hmapeq, interleave_cons_char, hint0]
      · cases hp : pickBest (c :: rest) with
        | some tl =>
          obtain ⟨t, l⟩ := tl
          obtain ⟨hl1, hl2⟩ := pickBest_pos hp
          have heq : lexFuel (f + 1) (c :: rest) 0 =
              ⟨some t, 0, l⟩ :: (lexFuel f ((c :: rest).drop l) 0).map (shiftItem l) := by
            simp only [lexFuel, hc, Bool.false_eq_true, if_false, hp, Nat.zero_add]
            rw [lex_shift]
          have hok0 : ∀ it ∈ lexFuel f ((c :: rest).drop l) 0, isOk it = true := by
            intro it hit
            have hmem := hok (shiftItem l it)
              (by rw [heq]; exact List.mem_cons_of_mem _ (List.mem_map_of_mem _ hit))
            simpa [isOk, shiftItem] using hmem
          have hdl : ((c :: rest).drop l).length ≤ f := by
            rw [List.length_drop]
            simp only [List.length_cons] at hl2 ⊢
            omega
          obtain ⟨ws0, hl0, hsk0, hint0⟩ := ih ((c :: rest).drop l) hdl hok0
          refine ⟨[] :: ws0, ?_, ?_, ?_⟩
          · rw [heq]
            simp only [List.length_cons, List.length_map] at hl0 ⊢
            omega
          · intro w' hw' c' hc'
            rcases List.mem_cons.mp hw' with rfl | hmem
            · cases hc'
            · exact hsk0 w' hmem c' hc'
          · rw [heq]
            simp only [List.map_cons, List.map_map]
            have hmapeq : (lexFuel f ((c :: rest).drop l) 0).map
                  ((fun it => sliceSpan (c :: rest) it.start it.stop) ∘ shiftItem l) =
                (lexFuel f ((c :: rest).drop l) 0).map
                  (fun it => sliceSpan ((c :: rest).drop l) it.start it.stop) := by
              apply List.map_congr_left
              intro it _
              exact sliceSpan_drop (c :: rest) l it.start it.stop
            rw [hmapeq]
            show ([] : List Char) ++ sliceSpan (c :: rest) 0 l ++
                interleave ws0 _ = c :: rest
            rw [hint0]
            have htext0 : sliceSpan (c :: rest) 0 l = (c :: rest).take l := by
              simp [sliceSpan]
            rw [htext0, List.nil_append, List.take_append_drop]
        | none =>
          exfalso
          have hmem : (⟨none, 0, 0 + (if c == '"' then rest.length + 1 else 1)⟩ : Item) ∈
              lexFuel (f + 1) (c :: rest) 0 := by
            simp only [lexFuel, hc, Bool.false_eq_true, if_false, hp]
            exact List.mem_cons_self _ _
          have hbad := hok _ hmem
          simp [isOk] at hbad

/-- Claim C2: on every buffer where lexing succeeds, each item's span has
`start ≤ stop`, the spans of successive items are non-overlapping with
non-decreasing start offsets, and the buffer decomposes exactly into the
token texts interleaved with all-whitespace runs (whitespace before,
between, and after the tokens), so concatenating the covered bytes with
the skipped whitespace reconstructs the buffer. -/
theorem c2_span_invariants (s : List Char) (h : lexOk s = true) :
    (∀ it ∈ lex s, it.start ≤ it.stop) ∧
    List.Pairwise (fun a b => a.stop ≤ b.start) (lex s) ∧
    ∃ ws : List (List Char), ws.length = (lex s).length + 1 ∧
      (∀ w ∈ ws, ∀ c ∈ w, isSkip c = true) ∧
      interleave ws ((lex s).map (fun it => sliceSpan s it.start it.stop)) = s := by
  have hok : ∀ it ∈ lexFuel s.length s 0, isOk it = true := by
    intro it hit
    exact List.all_eq_true.mp h it hit
  refine ⟨?_, ?_, ?_⟩
  · intro it hit
    exact (lexFuel_bounds s.length s 0 (Nat.le_refl _) it hit).2.1
  · exact lexFuel_pairwise s.length s 0 (Nat.le_refl _)
  · exact lexFuel_cover s.length s (Nat.le_refl _) hok

/-- Witness for claim C2 on the buffer `let a`. -/
theorem c2_witness :
    lexOk "let a".toList = true ∧
    ((∀ it ∈ lex "let a".toList, it.start ≤ it.stop) ∧
      List.Pairwise (fun a b => a.stop ≤ b.start) (lex "let a".toList) ∧
      ∃ ws : List (List Char), ws.length = (lex "let a".toList).length + 1 ∧
        (∀ w ∈ ws, ∀ c ∈ w, isSkip c = true) ∧
        interleave ws ((lex "let a".toList).map
          (fun it => sliceSpan "let a".toList it.start it.stop)) = "let a".toList) :=
  ⟨by decide, c2_span_invariants "let a".toList (by decide)⟩
